import Mathlib

/-!
# Verification of the casino card library (`src/casino/cards.py`)

Shallow embedding of the repository's single module: deck construction and
dealing, blackjack scoring, poker hand classification, and the hold'em
community-card search.  Python strings are modelled as Lean `String`s, lists
as `List`, dict/`Counter` values as count lists over first-occurrence-free
`dedup` keys (every use in the source is order-insensitive: membership,
length, and counts), and exceptions as `Except`/`Option` results.
-/

namespace Casino

/-- Embeds `Card = namedtuple('Card', ('rank', 'suit'))`. -/
structure Card where
  rank : String
  suit : String
deriving DecidableEq, Repr

/-- Embeds `RANKS = ('2', ..., 'A')`. -/
def RANKS : List String :=
  ["2", "3", "4", "5", "6", "7", "8", "9", "10", "J", "Q", "K", "A"]

/-- Embeds `SUITS = ('H', 'D', 'C', 'S')`. -/
def SUITS : List String := ["H", "D", "C", "S"]

/-- A card drawn from the fixed rank and suit alphabets. -/
def validCard (c : Card) : Prop := c.rank ∈ RANKS ∧ c.suit ∈ SUITS

instance (c : Card) : Decidable (validCard c) :=
  inferInstanceAs (Decidable (c.rank ∈ RANKS ∧ c.suit ∈ SUITS))

/-! ## Deck -/

/-- Deck state: the card list `self.deck` plus the deal cursor `self._idx`. -/
structure Deck where
  deck : List Card
  idx : Nat
deriving DecidableEq, Repr

/-- Python list repetition `l * n` (concatenation of `n` copies). -/
def listRepeat (l : List α) : Nat → List α
  | 0 => []
  | n + 1 => l ++ listRepeat l n

/-- Embeds `Deck._create_cards`: `itertools.product(RANKS * num_decks, SUITS)`
turned into `Card(rank, suit)` values. -/
def create_cards (num_decks : Nat) : List Card :=
  (listRepeat RANKS num_decks).flatMap (fun r => SUITS.map (fun s => ⟨r, s⟩))

/-- Embeds `Deck.cards_remaining`: `len(self.deck) - self._idx`. -/
def cards_remaining (d : Deck) : Nat := d.deck.length - d.idx

/-- Embeds `Deck.deal`: succeeds only when `cards_remaining > num_cards`, returning
the slice `islice(deck, idx, idx + num_cards)` and advancing the cursor;
otherwise raises `ValueError('Not enough cards remaining.')`. -/
def deal (d : Deck) (num_cards : Nat) : Except String (List Card × Deck) :=
  if cards_remaining d > num_cards then
    Except.ok ((d.deck.drop d.idx).take num_cards,
               { d with idx := d.idx + num_cards })
  else
    Except.error "Not enough cards remaining."

/-! ## BlackJackHand -/

/-- Embeds `BlackJackHand.CARD_VALUES`: `zip(RANKS, (*range(2, 11), 10, 10, 10, 11))`. -/
def CARD_VALUES : List (String × Nat) :=
  [("2", 2), ("3", 3), ("4", 4), ("5", 5), ("6", 6), ("7", 7), ("8", 8),
   ("9", 9), ("10", 10), ("J", 10), ("Q", 10), ("K", 10), ("A", 11)]

/-- Dictionary lookup `CARD_VALUES[rank]` (the rank is always present). -/
def cardValue (r : String) : Nat := (CARD_VALUES.lookup r).getD 0

/-- Embeds `BlackJackHand._handle_ace`. -/
def handle_ace (current_hand_score : Nat) : Nat :=
  if current_hand_score > 10 then 1 else 11

/-- The accumulator loop inside `BlackJackHand.score`.  The membership test
`'A' in card` on the namedtuple checks both fields. -/
def scoreLoop : List Card → Nat → Nat
  | [], hand_score => hand_score
  | c :: cs, hand_score =>
    scoreLoop cs
      (hand_score +
        (if c.rank = "A" ∨ c.suit = "A" then handle_ace hand_score
         else cardValue c.rank))

/-- Embeds `BlackJackHand.score`. -/
def score (cards : List Card) : Nat := scoreLoop cards 0

/-! ## PokerHand -/

/-- Python string comparison on the underlying character lists
(lexicographic by code point). -/
def charListLt : List Char → List Char → Bool
  | [], [] => false
  | [], _ :: _ => true
  | _ :: _, [] => false
  | a :: as, b :: bs =>
    if a.toNat < b.toNat then true
    else if b.toNat < a.toNat then false
    else charListLt as bs

/-- Python `a < b` on strings. -/
def strLtB (a b : String) : Bool := charListLt a.data b.data

/-- The weak order `a ≤ b` induced by Python string comparison. -/
def strLeProp (a b : String) : Prop := strLtB b a = false

instance : DecidableRel strLeProp :=
  fun a b => inferInstanceAs (Decidable (strLtB b a = false))

/-- Python `sorted` on a list of strings: the unique weakly ascending
rearrangement under code-point comparison. -/
def sortStr (l : List String) : List String := List.insertionSort strLeProp l

/-- Embeds `RANKS.index(rank)` (only ever applied to members of `RANKS`). -/
def indexIn (r : String) : List String → Nat
  | [] => 0
  | x :: xs => if x = r then 0 else 1 + indexIn r xs

/-- Index of a rank in the 13-rank order. -/
def rankIndex (r : String) : Nat := indexIn r RANKS

/-- Embeds `Counter(l).values()`: the count of each distinct element.  Key order is
irrelevant to every use in the source (membership, counts, length), so the
keys are taken from `List.dedup`. -/
def counterValues [DecidableEq α] (l : List α) : List Nat :=
  l.dedup.map (fun a => l.count a)

/-- Embeds `PokerHand.suits`. -/
def handSuits (cards : List Card) : List String := cards.map Card.suit

/-- Embeds `PokerHand.ranks`. -/
def handRanks (cards : List Card) : List String := cards.map Card.rank

/-- Embeds `PokerHand._all_unique_ranks`: `len({*ranks}) == 5`. -/
def all_unique_ranks (cards : List Card) : Bool :=
  (handRanks cards).dedup.length == 5

/-- Embeds `PokerHand.is_pair`: `2 in Counter(ranks).values()`. -/
def is_pair (cards : List Card) : Bool :=
  (counterValues (handRanks cards)).contains 2

/-- Embeds `PokerHand.is_two_pair`: `2 in Counter(Counter(ranks).values()).values()`. -/
def is_two_pair (cards : List Card) : Bool :=
  (counterValues (counterValues (handRanks cards))).contains 2

/-- Embeds `PokerHand.is_three_kind`: `3 in Counter(ranks).values()`. -/
def is_three_kind (cards : List Card) : Bool :=
  (counterValues (handRanks cards)).contains 3

/-- Embeds `PokerHand.is_four_kind`: `4 in Counter(ranks).values()`. -/
def is_four_kind (cards : List Card) : Bool :=
  (counterValues (handRanks cards)).contains 4

/-- Python `max` of the rank indices (the hand is never empty here). -/
def maxList : List Nat → Nat
  | [] => 0
  | x :: xs => xs.foldl Nat.max x

/-- Python `min` of the rank indices (the hand is never empty here). -/
def minList : List Nat → Nat
  | [] => 0
  | x :: xs => xs.foldl Nat.min x

/-- Embeds `PokerHand.is_straight`: every hand containing an ace is a straight only
when its sorted ranks are exactly `['2','3','4','5','A']`; otherwise all five
ranks must be distinct and span exactly 4 index positions. -/
def is_straight (cards : List Card) : Bool :=
  let ranks := handRanks cards
  if ranks.contains "A" then
    sortStr ranks == ["2", "3", "4", "5", "A"]
  else
    let rank_indices := ranks.map rankIndex
    all_unique_ranks cards && (maxList rank_indices - minList rank_indices == 4)

/-- Embeds `PokerHand.is_flush`: one suit and exactly 5 cards. -/
def is_flush (cards : List Card) : Bool :=
  (handSuits cards).dedup.length == 1 && cards.length == 5

/-- Embeds `PokerHand.is_full_house`: `is_pair and is_three_kind`. -/
def is_full_house (cards : List Card) : Bool :=
  is_pair cards && is_three_kind cards

/-- Embeds `PokerHand.is_straight_flush`. -/
def is_straight_flush (cards : List Card) : Bool :=
  is_straight cards && is_flush cards

/-- Embeds `PokerHand.is_royal_flush`: sorted ranks are exactly
`['10','A','J','K','Q']` (Python string order) and the hand is a flush. -/
def is_royal_flush (cards : List Card) : Bool :=
  sortStr (handRanks cards) == ["10", "A", "J", "K", "Q"] && is_flush cards

/-- Embeds `PokerHand.is_high_card`. -/
def is_high_card (cards : List Card) : Bool :=
  !is_straight cards && !is_flush cards && (handRanks cards).dedup.length == 5

/-- Embeds `PokerHand.hand_order`: the category names paired with their predicates,
in the exact order the source checks them. -/
def hand_order : List (String × (List Card → Bool)) :=
  [("royal_flush", is_royal_flush),
   ("four_kind", is_four_kind),
   ("straight_flush", is_straight_flush),
   ("full_house", is_full_house),
   ("flush", is_flush),
   ("straight", is_straight),
   ("three_kind", is_three_kind),
   ("two_pair", is_two_pair),
   ("pair", is_pair),
   ("high_card", is_high_card)]

/-- The `next(hand for hand in self.hand_order if getattr(self, 'is_' + hand))`
search: index of the first matching predicate, `none` when `next` raises
`StopIteration`. -/
def firstMatchAux (cards : List Card) :
    List (String × (List Card → Bool)) → Nat → Option Nat
  | [], _ => none
  | p :: ps, i => if p.2 cards then some i else firstMatchAux cards ps (i + 1)

/-- Embeds `PokerHand.hand_rank`: position in `hand_order` of the first category
whose predicate holds. -/
def hand_rank (cards : List Card) : Option Nat := firstMatchAux cards hand_order 0

/-- Embeds `PokerHand.__lt__`: `self.hand_rank > other.hand_rank` (both ranks are
evaluated; a failed classification propagates). -/
def pokerLt (a b : List Card) : Option Bool := do
  let ra ← hand_rank a
  let rb ← hand_rank b
  pure (decide (ra > rb))

/-- Embeds `PokerHand.__gt__`: `self.hand_rank < other.hand_rank`. -/
def pokerGt (a b : List Card) : Option Bool := do
  let ra ← hand_rank a
  let rb ← hand_rank b
  pure (decide (ra < rb))

/-! ## HoldEmHand -/

/-- Embeds `itertools.combinations(l, n)`: all `n`-element subsequences, in
lexicographic order of positions. -/
def combinations : Nat → List α → List (List α)
  | 0, _ => [[]]
  | _ + 1, [] => []
  | n + 1, x :: xs =>
    ((combinations n xs).map (fun c => x :: c)) ++ combinations (n + 1) xs

/-- The accumulation loop of `HoldEmHand.hand_rank`: classify
`self.cards + list(card_combo)` for each combination, keeping the smallest
rank; the sentinel start value is `1e6`. -/
def holdemLoop (cards : List Card) :
    List (List Card) → Nat → Option Nat
  | [], best_rank => some best_rank
  | combo :: rest, best_rank =>
    match hand_rank (cards ++ combo) with
    | none => none
    | some current_rank =>
      holdemLoop cards rest
        (if current_rank < best_rank then current_rank else best_rank)

/-- Embeds `HoldEmHand.hand_rank`: with community cards, the best rank over all
3-card community combinations; with none, the plain classification of the
held cards. -/
def holdem_hand_rank (cards community_cards : List Card) : Option Nat :=
  if community_cards.isEmpty then hand_rank cards
  else holdemLoop cards (combinations 3 community_cards) 1000000

/-! ## Spec-side definitions used to state the claims -/

/-- Spec-side notion for C4: how many distinct ranks appear exactly `c`
times among `ranks`. -/
def ranksWithCount (ranks : List String) (c : Nat) : Nat :=
  (ranks.dedup.filter (fun r => ranks.count r == c)).length

/-- Spec-side notion for C7: the `PokerHand` classification of the hole
cards joined with each candidate combination, all of which must succeed. -/
def classifyCombos (cards : List Card) : List (List Card) → Option (List Nat)
  | [] => some []
  | combo :: rest =>
    match hand_rank (cards ++ combo), classifyCombos cards rest with
    | some r, some rs => some (r :: rs)
    | _, _ => none

/-- Spec-side notion for C2: the ranks occupy five consecutive positions of
the 13-rank order — some window `k..k+4` bounds every rank index and every
position of the window is attained. -/
def occupiesConsecutive (ranks : List String) : Bool :=
  (List.range 9).any (fun k =>
    decide ((∀ i ∈ ranks.map rankIndex, k ≤ i ∧ i ≤ k + 4) ∧
            (∀ i ∈ List.range 13, k ≤ i → i ≤ k + 4 → i ∈ ranks.map rankIndex)))

end Casino

namespace Casino

/-! ### Helper lemmas: deck contents -/

theorem create_cards_succ (n : Nat) :
    create_cards (n + 1) =
      (RANKS.flatMap fun r => SUITS.map fun s => (⟨r, s⟩ : Card)) ++ create_cards n := by
  simp [create_cards, listRepeat, List.flatMap_append]

theorem length_create_cards (n : Nat) : (create_cards n).length = 52 * n := by
  induction n with
  | zero => rfl
  | succ n ih =>
    rw [create_cards_succ, List.length_append, ih]
    have h1 : (RANKS.flatMap fun r => SUITS.map fun s => (⟨r, s⟩ : Card)).length = 52 := by
      decide
    rw [h1]
    ring

theorem count_single_deck :
    ∀ r ∈ RANKS, ∀ s ∈ SUITS,
      (RANKS.flatMap fun r => SUITS.map fun s => (⟨r, s⟩ : Card)).count (⟨r, s⟩ : Card) = 1 := by
  decide

theorem count_create_cards (n : Nat) (r s : String)
    (hr : r ∈ RANKS) (hs : s ∈ SUITS) :
    (create_cards n).count (⟨r, s⟩ : Card) = n := by
  induction n with
  | zero => rfl
  | succ n ih =>
    rw [create_cards_succ, List.count_append, ih, count_single_deck r hr s hs]
    omega

/-! ### Helper lemmas: the Python string order -/

theorem charListLt_irrefl : ∀ a : List Char, charListLt a a = false
  | [] => rfl
  | _ :: as => by
    simp only [charListLt, Nat.lt_irrefl, if_false]
    exact charListLt_irrefl as

theorem charListLt_asymm :
    ∀ a b : List Char, charListLt a b = true → charListLt b a = false
  | [], [] => by simp [charListLt]
  | [], _ :: _ => fun _ => rfl
  | _ :: _, [] => by simp [charListLt]
  | a :: as, b :: bs => by
    intro h
    simp only [charListLt] at h ⊢
    by_cases h1 : a.toNat < b.toNat
    · have h2 : ¬ b.toNat < a.toNat := by omega
      simp [h1, h2]
    · by_cases h2 : b.toNat < a.toNat
      · simp [h1, h2] at h
      · simp [h1, h2] at h ⊢
        exact charListLt_asymm as bs h

theorem charListLt_eq_of_not_lt :
    ∀ a b : List Char, charListLt a b = false → charListLt b a = false → a = b
  | [], [] => by simp
  | [], _ :: _ => by simp [charListLt]
  | _ :: _, [] => by simp [charListLt]
  | a :: as, b :: bs => by
    intro hab hba
    simp only [charListLt] at hab hba
    by_cases h1 : a.toNat < b.toNat
    · simp [h1] at hab
    · by_cases h2 : b.toNat < a.toNat
      · simp [h1, h2] at hba
      · simp [h1, h2] at hab hba
        have hn : a.toNat = b.toNat := by omega
        have ha : a = b := by
          have := congrArg Char.ofNat hn
          rwa [Char.ofNat_toNat, Char.ofNat_toNat] at this
        rw [ha, charListLt_eq_of_not_lt as bs hab hba]

theorem charListLt_trans :
    ∀ a b c : List Char,
      charListLt a b = true → charListLt b c = true → charListLt a c = true
  | [], [], _ => by simp [charListLt]
  | [], _ :: _, [] => by simp [charListLt]
  | [], _ :: _, _ :: _ => fun _ _ => rfl
  | _ :: _, [], _ => by simp [charListLt]
  | _ :: _, _ :: _, [] => by simp [charListLt]
  | a :: as, b :: bs, c :: cs => by
    intro h1 h2
    simp only [charListLt] at h1 h2 ⊢
    by_cases hab : a.toNat < b.toNat
    · by_cases hbc : b.toNat < c.toNat
      · simp [show a.toNat < c.toNat by omega]
      · by_cases hcb : c.toNat < b.toNat
        · simp [hbc, hcb] at h2
        · simp [show a.toNat < c.toNat by omega]
    · by_cases hba : b.toNat < a.toNat
      · simp [hab, hba] at h1
      · simp [hab, hba] at h1
        by_cases hbc : b.toNat < c.toNat
        · simp [show a.toNat < c.toNat by omega]
        · by_cases hcb : c.toNat < b.toNat
          · simp [hbc, hcb] at h2
          · simp [hbc, hcb] at h2
            have hac : ¬ a.toNat < c.toNat := by omega
            have hca : ¬ c.toNat < a.toNat := by omega
            simp [hac, hca]
            exact charListLt_trans as bs cs h1 h2

theorem strLtB_asymm {a b : String} (h : strLtB a b = true) : strLtB b a = false :=
  charListLt_asymm a.data b.data h

theorem strLtB_eq_of_not_lt {a b : String}
    (h1 : strLtB a b = false) (h2 : strLtB b a = false) : a = b := by
  have h := charListLt_eq_of_not_lt a.data b.data h1 h2
  cases a; cases b; exact congrArg String.mk h

theorem strLtB_trans {a b c : String}
    (h1 : strLtB a b = true) (h2 : strLtB b c = true) : strLtB a c = true :=
  charListLt_trans a.data b.data c.data h1 h2

instance : IsTotal String strLeProp := by
  constructor
  intro a b
  unfold strLeProp
  by_cases h1 : strLtB a b = true
  · exact Or.inl (strLtB_asymm h1)
  · exact Or.inr (Bool.not_eq_true _ ▸ h1)

instance : IsTrans String strLeProp := by
  constructor
  intro a b c h1 h2
  unfold strLeProp at *
  by_cases hca : strLtB c a = true
  · by_cases hab : strLtB a b = true
    · exact absurd (strLtB_trans hca hab) (by simp [h2])
    · have : a = b := strLtB_eq_of_not_lt (by simpa using hab) h1
      subst this
      exact absurd hca (by simp [h2])
  · simpa using hca

instance : IsAntisymm String strLeProp := by
  constructor
  intro a b h1 h2
  exact strLtB_eq_of_not_lt h2 h1

theorem sortStr_perm (l : List String) : (sortStr l).Perm l :=
  List.perm_insertionSort strLeProp l

theorem sortStr_sorted (l : List String) : List.Sorted strLeProp (sortStr l) :=
  List.sorted_insertionSort strLeProp l

/-- Python `sorted` is a function of the underlying multiset. -/
theorem sortStr_eq_of_perm {l l' : List String} (h : l.Perm l') :
    sortStr l = sortStr l' :=
  List.eq_of_perm_of_sorted
    (((sortStr_perm l).trans h).trans (sortStr_perm l').symm)
    (sortStr_sorted l) (sortStr_sorted l')

/-- Sorting a permutation of an already sorted list recovers that list. -/
theorem sortStr_eq_self_of_sorted {l : List String}
    (h : List.Sorted strLeProp l) : sortStr l = l :=
  List.eq_of_perm_of_sorted (sortStr_perm l) (sortStr_sorted l) h

/-! ### Helper lemmas: Python `min`/`max` of a list -/

theorem foldl_max_le {l : List Nat} {a b : Nat}
    (ha : a ≤ b) (h : ∀ x ∈ l, x ≤ b) : l.foldl Nat.max a ≤ b := by
  induction l generalizing a with
  | nil => exact ha
  | cons x xs ih =>
    exact ih (Nat.max_le.mpr ⟨ha, h x (by simp)⟩) (fun y hy => h y (by simp [hy]))

theorem le_foldl_max {l : List Nat} (a : Nat) : a ≤ l.foldl Nat.max a := by
  induction l generalizing a with
  | nil => exact Nat.le_refl a
  | cons x xs ih => exact Nat.le_trans (Nat.le_max_left a x) (ih (Nat.max a x))

theorem mem_le_foldl_max {l : List Nat} {x : Nat} (hx : x ∈ l) (a : Nat) :
    x ≤ l.foldl Nat.max a := by
  induction l generalizing a with
  | nil => cases hx
  | cons y ys ih =>
    rcases List.mem_cons.mp hx with h | h
    · subst h
      exact Nat.le_trans (Nat.le_max_right a x) (le_foldl_max _)
    · exact ih h _

theorem foldl_max_mem {l : List Nat} (a : Nat) :
    l.foldl Nat.max a = a ∨ l.foldl Nat.max a ∈ l := by
  induction l generalizing a with
  | nil => exact Or.inl rfl
  | cons x xs ih =>
    rcases ih (Nat.max a x) with h | h
    · rcases max_choice a x with hm | hm
      · exact Or.inl (h.trans hm)
      · exact Or.inr (by simp [h.trans hm])
    · exact Or.inr (by simp [h])

theorem le_maxList {l : List Nat} {x : Nat} (hx : x ∈ l) : x ≤ maxList l := by
  cases l with
  | nil => cases hx
  | cons y ys =>
    rcases List.mem_cons.mp hx with h | h
    · exact h ▸ le_foldl_max y
    · exact mem_le_foldl_max h y

theorem maxList_mem {l : List Nat} (h : l ≠ []) : maxList l ∈ l := by
  cases l with
  | nil => exact absurd rfl h
  | cons y ys =>
    rcases foldl_max_mem (l := ys) y with h | h
    · simp [maxList, h]
    · simp [maxList, h]

theorem maxList_le {l : List Nat} {b : Nat} (hne : l ≠ [])
    (h : ∀ x ∈ l, x ≤ b) : maxList l ≤ b := by
  cases l with
  | nil => exact absurd rfl hne
  | cons y ys =>
    exact foldl_max_le (h y (by simp)) (fun x hx => h x (by simp [hx]))

theorem foldl_min_le {l : List Nat} (a : Nat) : l.foldl Nat.min a ≤ a := by
  induction l generalizing a with
  | nil => exact Nat.le_refl a
  | cons x xs ih => exact Nat.le_trans (ih (Nat.min a x)) (Nat.min_le_left a x)

theorem foldl_min_le_mem {l : List Nat} {x : Nat} (hx : x ∈ l) (a : Nat) :
    l.foldl Nat.min a ≤ x := by
  induction l generalizing a with
  | nil => cases hx
  | cons y ys ih =>
    rcases List.mem_cons.mp hx with h | h
    · subst h
      have h1 : (x :: ys).foldl Nat.min a = ys.foldl Nat.min (Nat.min a x) := rfl
      rw [h1]
      exact Nat.le_trans (foldl_min_le _) (Nat.min_le_right a x)
    · exact ih h _

theorem foldl_min_mem {l : List Nat} (a : Nat) :
    l.foldl Nat.min a = a ∨ l.foldl Nat.min a ∈ l := by
  induction l generalizing a with
  | nil => exact Or.inl rfl
  | cons x xs ih =>
    rcases ih (Nat.min a x) with h | h
    · rcases min_choice a x with hm | hm
      · exact Or.inl (h.trans hm)
      · exact Or.inr (by simp [h.trans hm])
    · exact Or.inr (by simp [h])

theorem minList_le {l : List Nat} {x : Nat} (hx : x ∈ l) : minList l ≤ x := by
  cases l with
  | nil => cases hx
  | cons y ys =>
    rcases List.mem_cons.mp hx with h | h
    · exact h ▸ foldl_min_le y
    · exact foldl_min_le_mem h y

theorem minList_mem {l : List Nat} (h : l ≠ []) : minList l ∈ l := by
  cases l with
  | nil => exact absurd rfl h
  | cons y ys =>
    rcases foldl_min_mem (l := ys) y with h | h
    · simp [minList, h]
    · simp [minList, h]

theorem le_minList {l : List Nat} {b : Nat} (hne : l ≠ [])
    (h : ∀ x ∈ l, b ≤ x) : b ≤ minList l := by
  have := minList_mem hne
  exact h _ this

/-! ### Helper lemmas: `Counter` values -/

theorem mem_counterValues [DecidableEq α] {l : List α} {c : Nat} :
    c ∈ counterValues l ↔ ∃ a ∈ l, l.count a = c := by
  unfold counterValues
  simp only [List.mem_map, List.mem_dedup]

theorem counterValues_contains [DecidableEq α] {l : List α} {c : Nat} :
    (counterValues l).contains c = true ↔ ∃ a ∈ l, l.count a = c := by
  rw [List.elem_iff]
  exact mem_counterValues

theorem count_counterValues [DecidableEq α] {l : List α} {c : Nat} :
    (counterValues l).count c = l.dedup.countP (fun a => l.count a == c) := by
  unfold counterValues
  rw [List.count_eq_countP, List.countP_map]
  rfl

/-! ### Helper lemmas: rank indices -/

theorem rankIndex_le_twelve : ∀ r ∈ RANKS, rankIndex r ≤ 12 := by decide

theorem rankIndex_inj :
    ∀ r₁ ∈ RANKS, ∀ r₂ ∈ RANKS, rankIndex r₁ = rankIndex r₂ → r₁ = r₂ := by
  decide

/-! ### Helper lemmas: hand classification -/

theorem firstMatchAux_le {cards : List Card} :
    ∀ (ps : List (String × (List Card → Bool))) (i n : Nat),
      firstMatchAux cards ps i = some n → n < i + ps.length
  | [], i, n => by simp [firstMatchAux]
  | p :: ps, i, n => by
    simp only [firstMatchAux]
    split
    · intro h
      simp at h
      simp only [List.length_cons]
      omega
    · intro h
      have := firstMatchAux_le ps (i + 1) n h
      simp only [List.length_cons]
      omega

/-- A successful classification is one of the ten category positions. -/
theorem hand_rank_le_nine {cards : List Card} {n : Nat}
    (h : hand_rank cards = some n) : n ≤ 9 := by
  have := firstMatchAux_le hand_order 0 n h
  simp [hand_order] at this
  omega

theorem scoreLoop_append (xs ys : List Card) (acc : Nat) :
    scoreLoop (xs ++ ys) acc = scoreLoop ys (scoreLoop xs acc) := by
  induction xs generalizing acc with
  | nil => rfl
  | cons c cs ih =>
    simp only [List.cons_append, scoreLoop]
    exact ih _

theorem combinations_eq_nil :
    ∀ {n : Nat} {l : List α}, l.length < n → combinations n l = []
  | 0, l => by simp
  | n + 1, [] => fun _ => rfl
  | n + 1, x :: xs => by
    intro h
    simp only [List.length_cons, Nat.add_lt_add_iff_right] at h
    simp only [combinations]
    rw [combinations_eq_nil h, combinations_eq_nil (Nat.lt_succ_of_lt h)]
    rfl

theorem combinations_ne_nil :
    ∀ {n : Nat} {l : List α}, n ≤ l.length → combinations n l ≠ []
  | 0, l => by simp [combinations]
  | n + 1, [] => by simp
  | n + 1, x :: xs => by
    intro h
    simp only [List.length_cons, Nat.add_le_add_iff_right] at h
    have := combinations_ne_nil (n := n) (l := xs) h
    simp only [combinations, ne_eq, List.append_eq_nil, List.map_eq_nil_iff]
    intro ⟨h1, _⟩
    exact this h1

end Casino

namespace Casino

/-! ## Claim C1: the exact-remaining deal boundary -/

/-- C1.  The source rejects a deal whenever the remaining cards are less
than **or equal to** the request: success requires
`cards_remaining > num_cards`, so dealing exactly all remaining cards raises
instead of succeeding with `cards_remaining == 0` as the claim states. -/
theorem c1_deal_exact_remaining_fails (d : Deck) (n : Nat)
    (h : cards_remaining d ≤ n) :
    deal d n = Except.error "Not enough cards remaining." := by
  unfold deal
  rw [if_neg (by omega)]

/-- C1 witness: a deck with one undealt card refuses `deal(1)`. -/
theorem c1_deal_exact_remaining_fails_witness :
    deal ⟨[⟨"A", "H"⟩], 0⟩ 1 = Except.error "Not enough cards remaining." :=
  c1_deal_exact_remaining_fails ⟨[⟨"A", "H"⟩], 0⟩ 1 (by decide)

/-! ## Claim C5: blackjack sequential ace scoring -/

/-- C5.  Scoring is a left-to-right accumulation: appending a card adds its
face value (numeric at face, J/Q/K at 10) except that an ace adds 1 when the
score accumulated so far already exceeds 10 and 11 otherwise; `A,A,9` scores
21 and `A,K` scores 21. -/
theorem c5_blackjack_sequential_ace :
    (∀ (cards : List Card) (c : Card),
        score (cards ++ [c]) =
          score cards +
            (if c.rank = "A" ∨ c.suit = "A" then
               (if score cards > 10 then 1 else 11)
             else cardValue c.rank)) ∧
    RANKS.map cardValue = [2, 3, 4, 5, 6, 7, 8, 9, 10, 10, 10, 10, 11] ∧
    score [⟨"A", "H"⟩, ⟨"A", "D"⟩, ⟨"9", "C"⟩] = 21 ∧
    score [⟨"A", "H"⟩, ⟨"K", "D"⟩] = 21 := by
  refine ⟨?_, by decide, by decide, by decide⟩
  intro cards c
  rw [score, score, scoreLoop_append]
  simp only [scoreLoop, handle_ace]

/-! ## Claim C9: fresh deck contents -/

/-- C9.  However the shuffle permutes `_create_cards(num_decks)`, a fresh
deck has `52 * num_decks` cards remaining and exactly `num_decks` copies of
every (rank, suit) pair. -/
theorem c9_fresh_deck (n : Nat) (hn : 1 ≤ n) (d : List Card)
    (hperm : d.Perm (create_cards n)) :
    cards_remaining ⟨d, 0⟩ = 52 * n ∧
    ∀ r ∈ RANKS, ∀ s ∈ SUITS, d.count (⟨r, s⟩ : Card) = n := by
  constructor
  · simp [cards_remaining, hperm.length_eq, length_create_cards]
  · intro r hr s hs
    rw [hperm.count_eq]
    exact count_create_cards n r s hr hs

/-- C9 witness: the unshuffled single deck. -/
theorem c9_fresh_deck_witness :
    cards_remaining ⟨create_cards 1, 0⟩ = 52 * 1 ∧
    ∀ r ∈ RANKS, ∀ s ∈ SUITS, (create_cards 1).count (⟨r, s⟩ : Card) = 1 :=
  c9_fresh_deck 1 (by decide) (create_cards 1) (List.Perm.refl _)

/-! ## Claim C10: undersized community pools -/

/-- C10.  A non-empty community pool of fewer than 3 cards yields no 3-card
combinations, so the loop never runs and the sentinel `1e6` is returned; no
classified hand ever has that rank. -/
theorem c10_small_community (hole community : List Card)
    (hne : community ≠ []) (hlt : community.length < 3) :
    holdem_hand_rank hole community = some 1000000 ∧
    ∀ cards : List Card, hand_rank cards ≠ some 1000000 := by
  constructor
  · have hemp : community.isEmpty = false := by
      simpa [List.isEmpty_iff] using hne
    rw [holdem_hand_rank, hemp]
    rw [combinations_eq_nil hlt]
    rfl
  · intro cards h
    exact absurd (hand_rank_le_nine h) (by omega)

/-- C10 witness: a single community card. -/
theorem c10_small_community_witness :
    holdem_hand_rank [⟨"2", "H"⟩, ⟨"3", "D"⟩] [⟨"5", "C"⟩] = some 1000000 ∧
    ∀ cards : List Card, hand_rank cards ≠ some 1000000 :=
  c10_small_community [⟨"2", "H"⟩, ⟨"3", "D"⟩] [⟨"5", "C"⟩]
    (by decide) (by decide)

/-! ## Claim C4: the two-pair predicate -/

/-- C4 counterexample: in the three-of-a-kind hand 2,2,2,3,4 no rank at all
appears exactly twice, yet the source's `is_two_pair` is true (the count
value 1 is attained by exactly two distinct ranks, 3 and 4). -/
theorem c4_counterexample :
    is_two_pair [⟨"2", "H"⟩, ⟨"2", "D"⟩, ⟨"2", "C"⟩, ⟨"3", "H"⟩, ⟨"4", "H"⟩] = true ∧
    ranksWithCount
      (handRanks [⟨"2", "H"⟩, ⟨"2", "D"⟩, ⟨"2", "C"⟩, ⟨"3", "H"⟩, ⟨"4", "H"⟩]) 2 = 0 := by
  decide

/-- C4 (amended).  `is_two_pair` is true exactly when **some** per-rank
count value is attained by exactly two distinct ranks — this includes the
genuine two-pair shape (count 2 twice) but also a triple with two
singletons (count 1 twice); a plain pair hand is rejected. -/
theorem c4_two_pair_characterization :
    (∀ cards : List Card,
        is_two_pair cards = true ↔
          ∃ c, ranksWithCount (handRanks cards) c = 2) ∧
    is_two_pair [⟨"2", "H"⟩, ⟨"2", "D"⟩, ⟨"3", "C"⟩, ⟨"3", "H"⟩, ⟨"4", "H"⟩] = true ∧
    is_two_pair [⟨"2", "H"⟩, ⟨"2", "D"⟩, ⟨"5", "C"⟩, ⟨"7", "S"⟩, ⟨"9", "H"⟩] = false := by
  refine ⟨?_, by decide, by decide⟩
  intro cards
  set ranks := handRanks cards with hranks
  have hwc : ∀ c : Nat, ranksWithCount ranks c = (counterValues ranks).count c := by
    intro c
    rw [ranksWithCount, count_counterValues, List.countP_eq_length_filter]
  unfold is_two_pair
  rw [counterValues_contains]
  constructor
  · rintro ⟨v, hvmem, hvcount⟩
    exact ⟨v, by rw [hwc]; exact hvcount⟩
  · rintro ⟨c, hc⟩
    refine ⟨c, ?_, by rw [← hwc]; exact hc⟩
    rw [hwc] at hc
    have : (counterValues ranks).count c ≠ 0 := by omega
    exact List.count_pos_iff.mp (Nat.pos_of_ne_zero this)

/-! ## Claim C8: poker hand comparison inversion -/

/-- C8.  When both hands classify, `A < B` holds exactly when A's stored
rank is numerically greater, `A > B` exactly when it is smaller; a hand
ranked flush (4) therefore compares greater than one ranked pair (8). -/
theorem c8_comparison_inversion (a b : List Card) (ra rb : Nat)
    (ha : hand_rank a = some ra) (hb : hand_rank b = some rb) :
    pokerLt a b = some (decide (rb < ra)) ∧
    pokerGt a b = some (decide (ra < rb)) ∧
    (ra = 4 → rb = 8 → pokerGt a b = some true) := by
  refine ⟨?_, ?_, ?_⟩
  · simp [pokerLt, ha, hb]
  · simp [pokerGt, ha, hb]
  · intro h4 h8
    subst h4; subst h8
    simp [pokerGt, ha, hb]

/-- C8 witness: a concrete flush beats a concrete pair. -/
theorem c8_comparison_inversion_witness :
    pokerLt [⟨"2", "H"⟩, ⟨"4", "H"⟩, ⟨"6", "H"⟩, ⟨"8", "H"⟩, ⟨"10", "H"⟩]
        [⟨"2", "H"⟩, ⟨"2", "D"⟩, ⟨"5", "C"⟩, ⟨"7", "S"⟩, ⟨"9", "H"⟩] =
      some (decide ((8 : Nat) < 4)) ∧
    pokerGt [⟨"2", "H"⟩, ⟨"4", "H"⟩, ⟨"6", "H"⟩, ⟨"8", "H"⟩, ⟨"10", "H"⟩]
        [⟨"2", "H"⟩, ⟨"2", "D"⟩, ⟨"5", "C"⟩, ⟨"7", "S"⟩, ⟨"9", "H"⟩] =
      some (decide ((4 : Nat) < 8)) ∧
    ((4 : Nat) = 4 → (8 : Nat) = 8 →
      pokerGt [⟨"2", "H"⟩, ⟨"4", "H"⟩, ⟨"6", "H"⟩, ⟨"8", "H"⟩, ⟨"10", "H"⟩]
          [⟨"2", "H"⟩, ⟨"2", "D"⟩, ⟨"5", "C"⟩, ⟨"7", "S"⟩, ⟨"9", "H"⟩] = some true) :=
  c8_comparison_inversion _ _ 4 8 (by decide) (by decide)

/-! ## Claim C3: hold'em hands with an empty community pool -/

theorem counterValues_pair_same [DecidableEq α] (a : α) :
    counterValues [a, a] = [2] := by
  simp [counterValues, List.dedup_cons_of_mem]

theorem counterValues_pair_diff [DecidableEq α] {a b : α} (h : a ≠ b) :
    counterValues [a, b] = [1, 1] := by
  simp [counterValues, List.dedup_cons_of_not_mem, h, List.count_cons, Ne.symm h]

theorem sortStr_length (l : List String) : (sortStr l).length = l.length :=
  (sortStr_perm l).length_eq

theorem sortStr_beq_false_of_length {l m : List String}
    (h : l.length ≠ m.length) : (sortStr l == m) = false := by
  rw [beq_eq_false_iff_ne]
  intro e
  exact h (by rw [← sortStr_length l, e])

theorem is_royal_flush_two (c1 c2 : Card) : is_royal_flush [c1, c2] = false := by
  unfold is_royal_flush
  rw [sortStr_beq_false_of_length (by simp [handRanks])]
  rfl

theorem is_flush_two (c1 c2 : Card) : is_flush [c1, c2] = false := by
  simp [is_flush]

theorem dedup_ranks_two_le (c1 c2 : Card) :
    (handRanks [c1, c2]).dedup.length ≤ 2 :=
  le_trans (List.dedup_sublist _).length_le (by simp [handRanks])

theorem is_straight_two (c1 c2 : Card) : is_straight [c1, c2] = false := by
  unfold is_straight
  by_cases hA : (handRanks [c1, c2]).contains "A"
  · rw [if_pos hA]
    exact sortStr_beq_false_of_length (by simp [handRanks])
  · rw [if_neg (by simpa using hA)]
    have h1 : all_unique_ranks [c1, c2] = false := by
      rw [all_unique_ranks, beq_eq_false_iff_ne]
      have := dedup_ranks_two_le c1 c2
      omega
    rw [h1]
    rfl

theorem is_high_card_two (c1 c2 : Card) : is_high_card [c1, c2] = false := by
  rw [is_high_card]
  have h1 : ((handRanks [c1, c2]).dedup.length == 5) = false := by
    rw [beq_eq_false_iff_ne]
    have := dedup_ranks_two_le c1 c2
    omega
  rw [h1]
  simp

theorem hand_rank_two (c1 c2 : Card) :
    hand_rank [c1, c2] = some (if c1.rank = c2.rank then 8 else 7) := by
  have h2 : handRanks [c1, c2] = [c1.rank, c2.rank] := rfl
  have hroyal := is_royal_flush_two c1 c2
  have hflush := is_flush_two c1 c2
  have hstraight := is_straight_two c1 c2
  have hsf : is_straight_flush [c1, c2] = false := by
    rw [is_straight_flush, hstraight]
    rfl
  by_cases h : c1.rank = c2.rank
  · have hcv : counterValues (handRanks [c1, c2]) = [2] := by
      rw [h2, h, counterValues_pair_same]
    have hfour : is_four_kind [c1, c2] = false := by rw [is_four_kind, hcv]; decide
    have h3k : is_three_kind [c1, c2] = false := by rw [is_three_kind, hcv]; decide
    have hp : is_pair [c1, c2] = true := by rw [is_pair, hcv]; decide
    have hfh : is_full_house [c1, c2] = false := by
      rw [is_full_house, h3k]
      exact Bool.and_false _
    have htp : is_two_pair [c1, c2] = false := by rw [is_two_pair, hcv]; decide
    rw [if_pos h]
    simp [hand_rank, hand_order, firstMatchAux, hroyal, hflush, hstraight, hsf,
      hfour, h3k, hp, hfh, htp]
  · have hcv : counterValues (handRanks [c1, c2]) = [1, 1] := by
      rw [h2, counterValues_pair_diff h]
    have hfour : is_four_kind [c1, c2] = false := by rw [is_four_kind, hcv]; decide
    have h3k : is_three_kind [c1, c2] = false := by rw [is_three_kind, hcv]; decide
    have hp : is_pair [c1, c2] = false := by rw [is_pair, hcv]; decide
    have hfh : is_full_house [c1, c2] = false := by
      rw [is_full_house, h3k]
      exact Bool.and_false _
    have htp : is_two_pair [c1, c2] = true := by rw [is_two_pair, hcv]; decide
    rw [if_neg h]
    simp [hand_rank, hand_order, firstMatchAux, hroyal, hflush, hstraight, hsf,
      hfour, h3k, hp, hfh, htp]

/-- C3 counterexample: with hole cards 2H,3D and no community cards the
classification is defined but lands on the two-pair index 7 — not on the
high-card index 9, and `is_high_card` is false for the hole cards. -/
theorem c3_counterexample :
    holdem_hand_rank [⟨"2", "H"⟩, ⟨"3", "D"⟩] [] = some 7 ∧
    is_high_card [⟨"2", "H"⟩, ⟨"3", "D"⟩] = false ∧
    is_two_pair [⟨"2", "H"⟩, ⟨"3", "D"⟩] = true := by
  decide

/-- C3 (amended).  With an empty community pool `hand_rank` never errors and
delegates to the plain classification of the 2 hole cards — but that
classification is never high-card-shaped: it is the two-pair index 7 for
distinct hole ranks and the pair index 8 for equal hole ranks, because a
2-card hand with distinct ranks makes the count value 1 occur exactly twice
in the rank counter. -/
theorem c3_empty_community_classification (c1 c2 : Card) :
    holdem_hand_rank [c1, c2] [] = hand_rank [c1, c2] ∧
    hand_rank [c1, c2] = some (if c1.rank = c2.rank then 8 else 7) ∧
    is_high_card [c1, c2] = false :=
  ⟨rfl, hand_rank_two c1 c2, is_high_card_two c1 c2⟩

/-! ## Claim C7: hold'em takes the best rank over all 3-card combinations -/

theorem classifyCombos_length (cards : List Card) :
    ∀ (combos : List (List Card)) (rs : List Nat),
      classifyCombos cards combos = some rs → rs.length = combos.length
  | [], rs => by
    intro h
    simp [classifyCombos] at h
    simp [← h]
  | combo :: rest, rs => by
    intro h
    simp only [classifyCombos] at h
    cases hr : hand_rank (cards ++ combo) with
    | none => rw [hr] at h; cases h
    | some r =>
      cases hrest : classifyCombos cards rest with
      | none => rw [hr, hrest] at h; cases h
      | some rs' =>
        rw [hr, hrest] at h
        cases h
        have := classifyCombos_length cards rest rs' hrest
        simp [this]

theorem classifyCombos_ranks_le (cards : List Card) :
    ∀ (combos : List (List Card)) (rs : List Nat),
      classifyCombos cards combos = some rs → ∀ r ∈ rs, r ≤ 9
  | [], rs => by
    intro h
    simp only [classifyCombos, Option.some.injEq] at h
    subst h
    intro r hr
    exact absurd hr (List.not_mem_nil r)
  | combo :: rest, rs => by
    intro h
    simp only [classifyCombos] at h
    cases hr : hand_rank (cards ++ combo) with
    | none => rw [hr] at h; cases h
    | some r =>
      cases hrest : classifyCombos cards rest with
      | none => rw [hr, hrest] at h; cases h
      | some rs' =>
        rw [hr, hrest] at h
        cases h
        intro x hx
        rcases List.mem_cons.mp hx with h | h
        · exact h ▸ hand_rank_le_nine hr
        · exact classifyCombos_ranks_le cards rest rs' hrest x h

theorem holdemLoop_eq_foldl (cards : List Card) :
    ∀ (combos : List (List Card)) (rs : List Nat) (b : Nat),
      classifyCombos cards combos = some rs →
      holdemLoop cards combos b = some (rs.foldl Nat.min b)
  | [], rs, b => by
    intro h
    simp only [classifyCombos, Option.some.injEq] at h
    subst h
    rfl
  | combo :: rest, rs, b => by
    intro h
    simp only [classifyCombos] at h
    cases hr : hand_rank (cards ++ combo) with
    | none => rw [hr] at h; cases h
    | some r =>
      cases hrest : classifyCombos cards rest with
      | none => rw [hr, hrest] at h; cases h
      | some rs' =>
        rw [hr, hrest] at h
        cases h
        have hacc : (if r < b then r else b) = Nat.min b r := by
          rcases Nat.lt_or_ge r b with hc | hc
          · rw [if_pos hc]
            exact (Nat.min_eq_right (Nat.le_of_lt hc)).symm
          · rw [if_neg (Nat.not_lt.mpr hc)]
            exact (Nat.min_eq_left hc).symm
        simp only [holdemLoop, hr, List.foldl, hacc]
        exact holdemLoop_eq_foldl cards rest rs' _ hrest

/-- C7.  With a community pool of 3 to 5 cards whose 3-card combinations all
classify, `hand_rank` returns exactly the minimum of the `PokerHand` ranks
of the hole cards joined with each combination. -/
theorem c7_holdem_best_rank (hole community : List Card)
    (h3 : 3 ≤ community.length) (h5 : community.length ≤ 5) (rs : List Nat)
    (hcls : classifyCombos hole (combinations 3 community) = some rs) :
    ∃ m, holdem_hand_rank hole community = some m ∧ m ∈ rs ∧ ∀ r ∈ rs, m ≤ r := by
  have hne : community ≠ [] := by
    intro e
    rw [e] at h3
    simp at h3
  have hemp : community.isEmpty = false := by simpa [List.isEmpty_iff] using hne
  have hcne : combinations 3 community ≠ [] := combinations_ne_nil h3
  have hrsne : rs ≠ [] := by
    intro e
    apply hcne
    have := classifyCombos_length hole _ _ hcls
    rw [e] at this
    exact List.length_eq_zero.mp this.symm
  have hrun : holdem_hand_rank hole community =
      some (rs.foldl Nat.min 1000000) := by
    rw [holdem_hand_rank, hemp]
    simp only [Bool.false_eq_true, if_false]
    exact holdemLoop_eq_foldl hole _ rs 1000000 hcls
  refine ⟨rs.foldl Nat.min 1000000, hrun, ?_, fun r hr => foldl_min_le_mem hr _⟩
  rcases foldl_min_mem (l := rs) 1000000 with h | h
  · exfalso
    obtain ⟨r, hr⟩ := List.exists_mem_of_ne_nil rs hrsne
    have h1 : rs.foldl Nat.min 1000000 ≤ r := foldl_min_le_mem hr _
    have h2 : r ≤ 9 := classifyCombos_ranks_le hole _ _ hcls r hr
    rw [h] at h1
    omega
  · exact h

/-- C7 witness: pocket aces with a 3-card flop classify as the pair index 8,
the minimum over the single combination. -/
theorem c7_holdem_best_rank_witness :
    ∃ m, holdem_hand_rank [⟨"A", "H"⟩, ⟨"A", "S"⟩]
            [⟨"2", "H"⟩, ⟨"3", "H"⟩, ⟨"4", "H"⟩] = some m ∧
         m ∈ [8] ∧ ∀ r ∈ [8], m ≤ r :=
  c7_holdem_best_rank [⟨"A", "H"⟩, ⟨"A", "S"⟩]
    [⟨"2", "H"⟩, ⟨"3", "H"⟩, ⟨"4", "H"⟩]
    (by decide) (by decide) [8] (by decide)

/-! ## Claim C2: straight detection -/

theorem list_toFinset_map [DecidableEq α] [DecidableEq β] (f : α → β)
    (l : List α) : (l.map f).toFinset = l.toFinset.image f := by
  induction l with
  | nil => simp
  | cons x xs ih => simp [ih]

/-- C2 counterexample: the broadway hand 10,J,Q,K,A (mixed suits) occupies
the five consecutive top positions of the rank order, yet `is_straight`
rejects it — any hand containing an ace is compared against the wheel
pattern only. -/
theorem c2_counterexample :
    is_straight
      [⟨"10", "H"⟩, ⟨"J", "D"⟩, ⟨"Q", "C"⟩, ⟨"K", "S"⟩, ⟨"A", "H"⟩] = false ∧
    occupiesConsecutive
      (handRanks [⟨"10", "H"⟩, ⟨"J", "D"⟩, ⟨"Q", "C"⟩, ⟨"K", "S"⟩, ⟨"A", "H"⟩]) = true ∧
    ([⟨"10", "H"⟩, ⟨"J", "D"⟩, ⟨"Q", "C"⟩, ⟨"K", "S"⟩,
      (⟨"A", "H"⟩ : Card)]).length = 5 ∧
    (∀ c ∈ [⟨"10", "H"⟩, ⟨"J", "D"⟩, ⟨"Q", "C"⟩, ⟨"K", "S"⟩,
      (⟨"A", "H"⟩ : Card)], validCard c) := by
  decide

theorem straight_chars_core (ranks : List String)
    (hrv : ∀ r ∈ ranks, r ∈ RANKS) (hrlen : ranks.length = 5) :
    ((if ranks.contains "A" = true then
        sortStr ranks == ["2", "3", "4", "5", "A"]
      else
        (ranks.dedup.length == 5) &&
          (maxList (ranks.map rankIndex) - minList (ranks.map rankIndex) == 4)) = true)
      ↔
    (ranks.Perm ["2", "3", "4", "5", "A"] ∨
     (ranks.contains "A" = false ∧ occupiesConsecutive ranks = true)) := by
  have hilen : (ranks.map rankIndex).length = 5 := by simp [hrlen]
  have hine : ranks.map rankIndex ≠ [] := by
    intro e
    rw [e] at hilen
    cases hilen
  have hib : ∀ i ∈ ranks.map rankIndex, i ≤ 12 := by
    intro i hi
    obtain ⟨r, hr, rfl⟩ := List.mem_map.mp hi
    exact rankIndex_le_twelve r (hrv r hr)
  constructor
  · intro h
    by_cases hA : ranks.contains "A" = true
    · left
      rw [if_pos hA] at h
      have heq : sortStr ranks = ["2", "3", "4", "5", "A"] := by simpa using h
      exact heq ▸ (sortStr_perm ranks).symm
    · right
      refine ⟨by simpa using hA, ?_⟩
      rw [if_neg hA, Bool.and_eq_true] at h
      obtain ⟨hu, hspan⟩ := h
      have hu5 : ranks.dedup.length = 5 := by simpa using hu
      have hnd : ranks.Nodup := by
        have := (List.dedup_sublist ranks).eq_of_length (by rw [hu5, hrlen])
        rw [← this]
        exact List.nodup_dedup ranks
      have hind : (ranks.map rankIndex).Nodup := by
        refine List.Nodup.map_on ?_ hnd
        intro x hx y hy hxy
        exact rankIndex_inj x (hrv x hx) y (hrv y hy) hxy
      have hmmem := minList_mem hine
      have hMmem := maxList_mem hine
      have hmM : minList (ranks.map rankIndex) ≤ maxList (ranks.map rankIndex) :=
        minList_le hMmem
      have hspan4 : maxList (ranks.map rankIndex) - minList (ranks.map rankIndex) = 4 := by
        simpa using hspan
      have hM12 : maxList (ranks.map rankIndex) ≤ 12 := hib _ hMmem
      have hMeq : maxList (ranks.map rankIndex) = minList (ranks.map rankIndex) + 4 := by
        omega
      have hsubset : (ranks.map rankIndex).toFinset ⊆
          Finset.Icc (minList (ranks.map rankIndex)) (minList (ranks.map rankIndex) + 4) := by
        intro i hi
        rw [List.mem_toFinset] at hi
        rw [Finset.mem_Icc]
        exact ⟨minList_le hi, hMeq ▸ le_maxList hi⟩
      have hcard : (ranks.map rankIndex).toFinset.card = 5 := by
        rw [List.toFinset_card_of_nodup hind, hilen]
      have hset : (ranks.map rankIndex).toFinset =
          Finset.Icc (minList (ranks.map rankIndex)) (minList (ranks.map rankIndex) + 4) :=
        Finset.eq_of_subset_of_card_le hsubset
          (by rw [hcard, Nat.card_Icc]; omega)
      rw [occupiesConsecutive, List.any_eq_true]
      refine ⟨minList (ranks.map rankIndex), List.mem_range.mpr (by omega), ?_⟩
      rw [decide_eq_true_iff]
      constructor
      · intro i hi
        exact ⟨minList_le hi, hMeq ▸ le_maxList hi⟩
      · intro i _ h1 h2
        rw [← List.mem_toFinset, hset, Finset.mem_Icc]
        exact ⟨h1, h2⟩
  · intro h
    rcases h with hperm | ⟨hA, hocc⟩
    · have hA : ranks.contains "A" = true :=
        List.elem_iff.mpr (hperm.mem_iff.mpr (by decide))
      rw [if_pos hA]
      have heq : sortStr ranks = ["2", "3", "4", "5", "A"] := by
        rw [sortStr_eq_of_perm hperm]
        decide
      simp [heq]
    · have hA' : ¬ (ranks.contains "A" = true) := by rw [hA]; simp
      rw [if_neg hA']
      rw [occupiesConsecutive, List.any_eq_true] at hocc
      obtain ⟨k, hkmem, hk⟩ := hocc
      rw [decide_eq_true_iff] at hk
      obtain ⟨hall, hcov⟩ := hk
      have hk8 : k < 9 := List.mem_range.mp hkmem
      have hsubset : (ranks.map rankIndex).toFinset ⊆ Finset.Icc k (k + 4) := by
        intro i hi
        rw [List.mem_toFinset] at hi
        rw [Finset.mem_Icc]
        exact hall i hi
      have hsup : Finset.Icc k (k + 4) ⊆ (ranks.map rankIndex).toFinset := by
        intro i hi
        rw [Finset.mem_Icc] at hi
        rw [List.mem_toFinset]
        exact hcov i (List.mem_range.mpr (by omega)) hi.1 hi.2
      have hset : (ranks.map rankIndex).toFinset = Finset.Icc k (k + 4) :=
        Finset.Subset.antisymm hsubset hsup
      have h5c : (ranks.map rankIndex).toFinset.card = 5 := by
        rw [hset, Nat.card_Icc]
        omega
      have himg : (ranks.map rankIndex).toFinset = ranks.toFinset.image rankIndex :=
        list_toFinset_map rankIndex ranks
      have hle1 : (ranks.map rankIndex).toFinset.card ≤ ranks.toFinset.card := by
        rw [himg]
        exact Finset.card_image_le
      have hle2 : ranks.toFinset.card ≤ 5 := by
        rw [List.card_toFinset]
        exact le_trans (List.dedup_sublist ranks).length_le (by rw [hrlen])
      have hdedup : ranks.dedup.length = 5 := by
        rw [← List.card_toFinset]
        omega
      have hkin : k ∈ ranks.map rankIndex :=
        hcov k (List.mem_range.mpr (by omega)) (Nat.le_refl k) (by omega)
      have hk4in : k + 4 ∈ ranks.map rankIndex :=
        hcov (k + 4) (List.mem_range.mpr (by omega)) (by omega) (Nat.le_refl _)
      have hmin : minList (ranks.map rankIndex) = k := by
        have h2 := minList_le hkin
        have h3 := le_minList hine (fun x hx => (hall x hx).1)
        omega
      have hmax : maxList (ranks.map rankIndex) = k + 4 := by
        have h2 := le_maxList hk4in
        have h3 := maxList_le hine (fun x hx => (hall x hx).2)
        omega
      rw [Bool.and_eq_true]
      constructor
      · simp [hdedup]
      · rw [hmin, hmax]
        simp

/-- C2 (amended).  For a valid 5-card hand `is_straight` holds exactly when
the ranks are the wheel A,2,3,4,5 or when they contain **no ace** and occupy
five consecutive positions of the 13-rank order; in particular the
ace-high run 10,J,Q,K,A does *not* satisfy `is_straight`. -/
theorem c2_straight_characterization (cards : List Card)
    (hv : ∀ c ∈ cards, validCard c) (h5 : cards.length = 5) :
    is_straight cards = true ↔
      ((handRanks cards).Perm ["2", "3", "4", "5", "A"] ∨
       ((handRanks cards).contains "A" = false ∧
        occupiesConsecutive (handRanks cards) = true)) := by
  have hrv : ∀ r ∈ handRanks cards, r ∈ RANKS := by
    intro r hr
    obtain ⟨c, hc, rfl⟩ := List.mem_map.mp hr
    exact (hv c hc).1
  have hrlen : (handRanks cards).length = 5 := by simp [handRanks, h5]
  exact straight_chars_core (handRanks cards) hrv hrlen

/-- C2 witness: the wheel hand AH,2H,3D,4C,5S instantiates the amended
characterization. -/
theorem c2_straight_characterization_witness :
    is_straight
        [⟨"A", "H"⟩, ⟨"2", "H"⟩, ⟨"3", "D"⟩, ⟨"4", "C"⟩, ⟨"5", "S"⟩] = true ↔
      ((handRanks [⟨"A", "H"⟩, ⟨"2", "H"⟩, ⟨"3", "D"⟩, ⟨"4", "C"⟩, ⟨"5", "S"⟩]).Perm
          ["2", "3", "4", "5", "A"] ∨
       ((handRanks [⟨"A", "H"⟩, ⟨"2", "H"⟩, ⟨"3", "D"⟩, ⟨"4", "C"⟩,
            ⟨"5", "S"⟩]).contains "A" = false ∧
        occupiesConsecutive
          (handRanks [⟨"A", "H"⟩, ⟨"2", "H"⟩, ⟨"3", "D"⟩, ⟨"4", "C"⟩,
            ⟨"5", "S"⟩]) = true)) :=
  c2_straight_characterization
    [⟨"A", "H"⟩, ⟨"2", "H"⟩, ⟨"3", "D"⟩, ⟨"4", "C"⟩, ⟨"5", "S"⟩]
    (by decide) (by decide)

end Casino

namespace Casino

/-! ## Claim C6: category precedence and first-match evaluation -/

theorem straight_nodup {cards : List Card} (hs : is_straight cards = true)
    (hlen : cards.length = 5) : (handRanks cards).Nodup := by
  simp only [is_straight] at hs
  by_cases hA : (handRanks cards).contains "A" = true
  · rw [if_pos hA] at hs
    have heq : sortStr (handRanks cards) = ["2", "3", "4", "5", "A"] := by
      simpa using hs
    have hperm : (handRanks cards).Perm ["2", "3", "4", "5", "A"] :=
      heq ▸ (sortStr_perm _).symm
    exact hperm.nodup_iff.mpr (by decide)
  · rw [if_neg hA, Bool.and_eq_true] at hs
    obtain ⟨hu, _⟩ := hs
    have hu5 : (handRanks cards).dedup.length = 5 := by
      simpa [all_unique_ranks] using hu
    have hrlen : (handRanks cards).length = 5 := by simp [handRanks, hlen]
    have := (List.dedup_sublist (handRanks cards)).eq_of_length
      (by rw [hu5, hrlen])
    rw [← this]
    exact List.nodup_dedup _

theorem nodup_four_kind_false {cards : List Card}
    (h : (handRanks cards).Nodup) : is_four_kind cards = false := by
  rw [is_four_kind, Bool.eq_false_iff]
  intro hc
  rw [counterValues_contains] at hc
  obtain ⟨a, ha, hcount⟩ := hc
  have := List.nodup_iff_count_le_one.mp h a
  omega

theorem straight_royal_false {cards : List Card}
    (hs : is_straight cards = true) : is_royal_flush cards = false := by
  simp only [is_straight] at hs
  rw [is_royal_flush]
  by_cases hA : (handRanks cards).contains "A" = true
  · rw [if_pos hA] at hs
    have heq : sortStr (handRanks cards) = ["2", "3", "4", "5", "A"] := by
      simpa using hs
    have hb : (sortStr (handRanks cards) == ["10", "A", "J", "K", "Q"]) = false := by
      rw [heq]
      decide
    rw [hb]
    rfl
  · rw [if_neg hA] at hs
    have hb : (sortStr (handRanks cards) == ["10", "A", "J", "K", "Q"]) = false := by
      rw [beq_eq_false_iff_ne]
      intro e
      have hmem : "A" ∈ handRanks cards := by
        have h1 : "A" ∈ sortStr (handRanks cards) := by
          rw [e]
          decide
        exact (sortStr_perm _).mem_iff.mp h1
      exact hA (List.elem_iff.mpr hmem)
    rw [hb]
    rfl

/-- C6.  `hand_rank` is the first-match evaluation of the ten category
predicates in the exact order royal flush, four of a kind, straight flush,
full house, flush, straight, three of a kind, two pair, pair, high card;
consequently a hand that is both a straight and a flush stores the
straight-flush index 2 rather than the flush or straight index. -/
theorem c6_precedence_first_match :
    (∀ cards : List Card,
        hand_rank cards =
          (if is_royal_flush cards then some 0
           else if is_four_kind cards then some 1
           else if is_straight_flush cards then some 2
           else if is_full_house cards then some 3
           else if is_flush cards then some 4
           else if is_straight cards then some 5
           else if is_three_kind cards then some 6
           else if is_two_pair cards then some 7
           else if is_pair cards then some 8
           else if is_high_card cards then some 9
           else none)) ∧
    (∀ cards : List Card, is_straight cards = true → is_flush cards = true →
        hand_rank cards = some 2) := by
  constructor
  · intro cards
    rfl
  · intro cards hs hf
    have hlen : cards.length = 5 := by
      rw [is_flush, Bool.and_eq_true] at hf
      simpa using hf.2
    have hnd := straight_nodup hs hlen
    have hroyal := straight_royal_false hs
    have hfour := nodup_four_kind_false hnd
    have hsf : is_straight_flush cards = true := by
      rw [is_straight_flush, hs, hf]
      rfl
    simp [hand_rank, hand_order, firstMatchAux, hroyal, hfour, hsf]

/-- C6 witness: the straight flush 2H,3H,4H,5H,6H classifies as index 2. -/
theorem c6_precedence_first_match_witness :
    hand_rank [⟨"2", "H"⟩, ⟨"3", "H"⟩, ⟨"4", "H"⟩, ⟨"5", "H"⟩, ⟨"6", "H"⟩] =
      some 2 :=
  c6_precedence_first_match.2
    [⟨"2", "H"⟩, ⟨"3", "H"⟩, ⟨"4", "H"⟩, ⟨"5", "H"⟩, ⟨"6", "H"⟩]
    (by decide) (by decide)

end Casino
